import Mathlib

/-!
Shallow embedding of `src/main.rs` of the neboder repository: a bounded-concurrency
batch downloader.  `main` fetches a listing page, extracts `(url, name)` links,
ensures the output directory exists, then for each link acquires a semaphore permit
and spawns a task running `download_file_to`; results are collected with a JoinSet.
`download_file_to` streams the response body chunk by chunk to a file, updating a
progress position `downloaded = min(downloaded + chunk_len, total_size)` where
`total_size = resp.content_length().unwrap_or(0)`.

The functional parts (progress arithmetic, file bytes, link collection, setup
sequencing) are embedded as Lean functions; the concurrent orchestration
(semaphore + spawned tasks) as a small-step transition system `Step` on `OrchState`.
-/

namespace Neboder

open List

/-- A link extracted from the listing page, as in `struct Link { url, name }`. -/
structure Link where
  url : String
  name : String
deriving DecidableEq, Repr

/-! ## Transfer unit: `download_file_to` -/

/-- `u64` wrap-around, for `downloaded + (chunk.len() as u64)`. -/
def wrap64 (n : Nat) : Nat := n % 2 ^ 64

/-- `resp.content_length().unwrap_or(0)`: a missing Content-Length becomes 0. -/
def totalSize (contentLength : Option Nat) : Nat := contentLength.getD 0

/-- One loop iteration of the progress update in `download_file_to`:
`let new = min(downloaded + (chunk.len() as u64), total_size)`. -/
def stepPosition (total downloaded chunkLen : Nat) : Nat :=
  min (wrap64 (downloaded + chunkLen)) total

/-- The sequence of progress positions reported over the received chunks,
starting from `let mut downloaded = 0u64` and applying the loop update for each
chunk (`pb.set_position(new)`). -/
def progressPositions (total downloaded : Nat) : List Nat → List Nat
  | [] => [downloaded]
  | c :: cs => downloaded :: progressPositions total (stepPosition total downloaded c) cs

/-- The final progress position after all chunks. -/
def finalPosition (total : Nat) (chunkLens : List Nat) : Nat :=
  chunkLens.foldl (fun d c => stepPosition total d c) 0

/-- The bytes of the created file: each chunk appended in order by
`file.write_all(&chunk)`. -/
def fileBytes (chunks : List (List Nat)) : List Nat :=
  chunks.foldl (fun acc c => acc ++ c) []

/-- Whether a path string is absolute (begins with a path separator), as
`Path::is_absolute` on Unix. -/
def isAbsolutePath (name : String) : Bool := name.data.head? == some '/'

/-- `PathBuf::from(dir).join(Path::new(&link.name))`: joining an absolute path
replaces the base; otherwise the name is appended under the directory. -/
def joinPath (dir name : String) : String :=
  if isAbsolutePath name then name else dir ++ "/" ++ name

/-- File-system effect of a successful transfer: `File::create` truncates any
existing file at the destination path and the streamed bytes become its content;
no other path is touched. -/
def fsAfterTransfer (fs : String → Option (List Nat)) (dir : String) (l : Link)
    (chunks : List (List Nat)) : String → Option (List Nat) :=
  fun p => if p = joinPath dir l.name then some (fileBytes chunks) else fs p

/-- Observable outcome of a successful run of `download_file_to`: the one file it
creates (path and bytes) and the progress positions it reports. -/
structure TransferOutcome where
  path : String
  bytes : List Nat
  positions : List Nat
deriving DecidableEq, Repr

/-- Success path of `download_file_to link dir` given the response's declared
content length and the list of body chunks, in arrival order. -/
def download_file_to (l : Link) (dir : String) (contentLength : Option Nat)
    (chunks : List (List Nat)) : TransferOutcome :=
  ⟨joinPath dir l.name, fileBytes chunks,
    progressPositions (totalSize contentLength) 0 (chunks.map List.length)⟩

/-! ## Link collection: `collect_links` -/

/-- `collect_links`: zip the href sequence with the bold-name sequence positionally
(`urls.zip(names)`), build a `Link` from each pair, and collect into a `BTreeSet`
(modelled by its underlying finite set: deduplicated). -/
def collect_links (urls names : List String) : Finset Link :=
  ((urls.zip names).map (fun p => Link.mk p.1 p.2)).toFinset

/-! ## CLI arguments -/

/-- `num_of_lanes: u8` with `default_value_t = 5`: absent means 5, a present value
is accepted iff it fits in `u8` (no lower bound, so 0 is accepted). -/
def parseNumLanes (arg : Option Nat) : Option Nat :=
  match arg with
  | none => some 5
  | some n => if n ≤ 255 then some n else none

/-! ## Batch orchestration: semaphore + JoinSet as a transition system

A state has the links not yet submitted (the remainder of the `for` loop), the
semaphore's available permits, the spawned-but-unfinished tasks (each holding one
permit), and the recorded results.  `Step.spawn` is one loop iteration:
`acquire_owned` (requires an available permit, consumes it) followed by
`join_set.spawn`; `Step.finish` is a task terminating with either outcome,
dropping its permit (`let _permit = permit`) and yielding its result to
`join_next`. -/

structure OrchState where
  pending : List Link
  available : Nat
  running : List Link
  finished : List (Link × Bool)
deriving DecidableEq, Repr

/-- Initial state: all links pending, `Semaphore::new(C)` full, nothing spawned. -/
def initState (C : Nat) (links : List Link) : OrchState :=
  ⟨links, C, [], []⟩

/-- One atomic step of the batch. -/
inductive Step : OrchState → OrchState → Prop where
  | spawn (s : OrchState) (l : Link) (rest : List Link)
      (hp : s.pending = l :: rest) (ha : 1 ≤ s.available) :
      Step s ⟨rest, s.available - 1, s.running ++ [l], s.finished⟩
  | finish (s : OrchState) (l : Link) (ok : Bool) (hr : l ∈ s.running) :
      Step s ⟨s.pending, s.available + 1, s.running.erase l, s.finished ++ [(l, ok)]⟩

/-- Reflexive-transitive closure of `Step`. -/
inductive Reachable (s : OrchState) : OrchState → Prop where
  | refl : Reachable s s
  | tail {t u : OrchState} : Reachable s t → Step t u → Reachable s u

/-- A state where the submission loop is done and every task has terminated. -/
def Terminal (s : OrchState) : Prop := s.pending = [] ∧ s.running = []

/-! ## `main`: setup sequencing and result aggregation -/

/-- A fatal setup error: listing fetch/parse failure or directory-creation
failure, each propagated by `?` out of `main`. -/
inductive MainErr
  | fetchErr
  | dirErr
deriving DecidableEq, Repr

/-- Observable events of a run of `main`, in program order. -/
inductive Ev
  | createDir
  | spawnTask (l : Link)
  | recordResult (l : Link) (ok : Bool)
deriving DecidableEq, Repr

/-- The sequential skeleton of `main`: fetch and parse the listing (fallible),
create the output directory only if it does not exist (fallible), then submit one
task per link and record one result per link; per-task failures are values, not
errors of `main`, so `main` returns `Ok` whenever setup succeeded. -/
def runMain (fetch : Except MainErr (List Link)) (dirExists : Bool)
    (dirCreate : Except MainErr Unit) (outcome : Link → Bool) :
    List Ev × Except MainErr (List (Link × Bool)) :=
  match fetch with
  | .error e => ([], .error e)
  | .ok links =>
    match (if dirExists then Except.ok () else dirCreate) with
    | .error e => ((if dirExists then [] else [Ev.createDir]), .error e)
    | .ok () =>
      ((if dirExists then [] else [Ev.createDir])
          ++ links.map Ev.spawnTask
          ++ links.map (fun l => Ev.recordResult l (outcome l)),
        .ok (links.map (fun l => (l, outcome l))))

/-! ## Helper lemmas -/

/-- `Reachable` is transitive. -/
theorem Reachable.trans {s t u : OrchState} (h₁ : Reachable s t) (h₂ : Reachable t u) :
    Reachable s u := by
  induction h₂ with
  | refl => exact h₁
  | tail _ hstep ih => exact Reachable.tail ih hstep

/-- A single step is reachable. -/
theorem Reachable.single {s t : OrchState} (h : Step s t) : Reachable s t :=
  Reachable.tail Reachable.refl h

/-- Permit conservation: available permits plus running tasks equal the capacity. -/
def PermitInv (C : Nat) (s : OrchState) : Prop :=
  s.available + s.running.length = C

/-- Link accounting: pending, running and finished links are a permutation of the
input link list. -/
def AccountInv (links : List Link) (s : OrchState) : Prop :=
  (s.pending ++ s.running ++ s.finished.map Prod.fst).Perm links

theorem step_permitInv {C : Nat} {s t : OrchState} (hs : PermitInv C s) (h : Step s t) :
    PermitInv C t := by
  unfold PermitInv at *
  cases h with
  | spawn l rest hp ha =>
    simp only [List.length_append, List.length_cons, List.length_nil]
    omega
  | finish l ok hr =>
    have := List.length_erase_of_mem hr
    have hpos : 1 ≤ s.running.length := List.length_pos_of_mem hr
    simp only [this]
    omega

theorem step_accountInv {links : List Link} {s t : OrchState} (hs : AccountInv links s)
    (h : Step s t) : AccountInv links t := by
  unfold AccountInv at *
  cases h with
  | spawn l rest hp ha =>
    refine List.Perm.trans ?_ hs
    rw [hp]
    calc rest ++ (s.running ++ [l]) ++ s.finished.map Prod.fst
        = (rest ++ s.running) ++ (l :: s.finished.map Prod.fst) := by
          simp [List.append_assoc]
      _ ~ l :: ((rest ++ s.running) ++ s.finished.map Prod.fst) := List.perm_middle
      _ = (l :: rest) ++ s.running ++ s.finished.map Prod.fst := by
          simp [List.append_assoc]
  | finish l ok hr =>
    refine List.Perm.trans ?_ hs
    have hrun : s.running.Perm (l :: s.running.erase l) := List.perm_cons_erase hr
    have hmid : (s.pending ++ l :: (s.running.erase l ++ s.finished.map Prod.fst)).Perm
        (l :: (s.pending ++ (s.running.erase l ++ s.finished.map Prod.fst))) :=
      List.perm_middle
    calc s.pending ++ s.running.erase l ++ (s.finished ++ [(l, ok)]).map Prod.fst
        = (s.pending ++ (s.running.erase l ++ s.finished.map Prod.fst)) ++ [l] := by
          simp [List.append_assoc]
      _ ~ l :: (s.pending ++ (s.running.erase l ++ s.finished.map Prod.fst)) :=
          List.perm_append_singleton l _
      _ ~ s.pending ++ l :: (s.running.erase l ++ s.finished.map Prod.fst) := hmid.symm
      _ = s.pending ++ ((l :: s.running.erase l) ++ s.finished.map Prod.fst) := by
          simp
      _ ~ s.pending ++ (s.running ++ s.finished.map Prod.fst) :=
          ((hrun.symm.append_right (s.finished.map Prod.fst)).append_left s.pending)
      _ = s.pending ++ s.running ++ s.finished.map Prod.fst := by
          simp [List.append_assoc]

theorem reachable_inv {C : Nat} {links : List Link} {s : OrchState}
    (h : Reachable (initState C links) s) : PermitInv C s ∧ AccountInv links s := by
  induction h with
  | refl => exact ⟨by simp [PermitInv, initState], by simp [AccountInv, initState]⟩
  | tail _ hstep ih => exact ⟨step_permitInv ih.1 hstep, step_accountInv ih.2 hstep⟩

/-- From any state satisfying permit conservation (capacity at least 1), a
terminal state is reachable: finishing tasks frees permits, freed permits let
pending links spawn, so the batch always runs to completion. -/
theorem completion_from {C : Nat} (hC : 1 ≤ C) :
    ∀ (n : Nat) (s : OrchState), 2 * s.pending.length + s.running.length ≤ n →
      PermitInv C s → ∃ t, Reachable s t ∧ Terminal t := by
  intro n
  induction n with
  | zero =>
    intro s hm _
    refine ⟨s, Reachable.refl, ?_, ?_⟩
    · exact List.length_eq_zero.mp (by omega)
    · exact List.length_eq_zero.mp (by omega)
  | succ n ih =>
    intro s hm hp
    cases hrun : s.running with
    | cons r rs =>
      have hr : r ∈ s.running := by rw [hrun]; exact List.mem_cons_self r rs
      have hstep := Step.finish s r false hr
      have hlen : (s.running.erase r).length = s.running.length - 1 :=
        List.length_erase_of_mem hr
      have hpos : 1 ≤ s.running.length := List.length_pos_of_mem hr
      obtain ⟨t, ht, htt⟩ := ih _ (by simp only [hlen]; omega) (step_permitInv hp hstep)
      exact ⟨t, Reachable.trans (Reachable.single hstep) ht, htt⟩
    | nil =>
      cases hpend : s.pending with
      | nil => exact ⟨s, Reachable.refl, hpend, hrun⟩
      | cons p ps =>
        have ha : 1 ≤ s.available := by
          unfold PermitInv at hp
          rw [hrun] at hp
          simp at hp
          omega
        have hstep := Step.spawn s p ps hpend ha
        have hm' : 2 * ps.length + (s.running ++ [p]).length ≤ n := by
          have h1 : s.pending.length = ps.length + 1 := by rw [hpend]; simp
          have h2 : s.running.length = 0 := by rw [hrun]; simp
          simp only [List.length_append, List.length_cons, List.length_nil]
          omega
        obtain ⟨t, ht, htt⟩ := ih _ hm' (step_permitInv hp hstep)
        exact ⟨t, Reachable.trans (Reachable.single hstep) ht, htt⟩

/-- From any reachable state, the batch can finish with one result per link. -/
theorem completion_covers {C : Nat} {links : List Link} {s : OrchState} (hC : 1 ≤ C)
    (h : Reachable (initState C links) s) :
    ∃ t, Reachable s t ∧ Terminal t ∧ (t.finished.map Prod.fst).Perm links := by
  obtain ⟨t, hst, htt⟩ :=
    completion_from hC (2 * s.pending.length + s.running.length) s (le_refl _)
      (reachable_inv h).1
  have ha := (reachable_inv (Reachable.trans h hst)).2
  unfold AccountInv at ha
  rw [htt.1, htt.2] at ha
  simp only [List.nil_append] at ha
  exact ⟨t, hst, htt, ha⟩

/-- `fileBytes` is the concatenation of the chunks in arrival order. -/
theorem fileBytes_eq_flatten (chunks : List (List Nat)) :
    fileBytes chunks = chunks.flatten := by
  have aux : ∀ (cs : List (List Nat)) (acc : List Nat),
      cs.foldl (fun a c => a ++ c) acc = acc ++ cs.flatten := by
    intro cs
    induction cs with
    | nil => intro acc; simp
    | cons c cs ih => intro acc; simp [List.foldl_cons, ih, List.append_assoc]
  simpa using aux chunks []

/-- With an unknown total (`total_size = 0`) every reported position is 0: the
clamp `min (downloaded + chunk_len) 0` pins the counter to 0. -/
theorem progressPositions_zero_total (cs : List Nat) :
    ∀ p ∈ progressPositions 0 0 cs, p = 0 := by
  induction cs with
  | nil => intro p hp; simpa [progressPositions] using hp
  | cons c cs ih =>
    intro p hp
    have hstep : stepPosition 0 0 c = 0 := by simp [stepPosition]
    rw [progressPositions, hstep] at hp
    rcases List.mem_cons.mp hp with h | h
    · exact h
    · exact ih p h

/-- Monotone and bounded progress: from any position at most the total, the
reported positions never decrease and never exceed the total, provided the `u64`
addition does not wrap. -/
theorem progressPositions_mono_bounded (total : Nat) :
    ∀ (cs : List Nat), (∀ c ∈ cs, total + c < 2 ^ 64) →
      ∀ d, d ≤ total →
        List.Pairwise (fun a b => a ≤ b) (progressPositions total d cs) ∧
        ∀ p ∈ progressPositions total d cs, d ≤ p ∧ p ≤ total := by
  intro cs
  induction cs with
  | nil =>
    intro _ d hd
    constructor
    · simp [progressPositions]
    · intro p hp
      simp only [progressPositions, List.mem_singleton] at hp
      exact ⟨hp ▸ le_refl d, hp ▸ hd⟩
  | cons c cs ih =>
    intro hc d hd
    have hc' : ∀ x ∈ cs, total + x < 2 ^ 64 := fun x hx => hc x (List.mem_cons_of_mem c hx)
    have hno : d + c < 2 ^ 64 := by
      have := hc c (List.mem_cons_self c cs)
      omega
    have hstep_ge : d ≤ stepPosition total d c := by
      unfold stepPosition wrap64
      rw [Nat.mod_eq_of_lt hno]
      exact le_min (Nat.le_add_right d c) hd
    have hstep_le : stepPosition total d c ≤ total := min_le_right _ _
    obtain ⟨ihp, ihm⟩ := ih hc' (stepPosition total d c) hstep_le
    constructor
    · rw [progressPositions]
      exact List.pairwise_cons.mpr
        ⟨fun p hp => le_trans hstep_ge (ihm p hp).1, ihp⟩
    · intro p hp
      rw [progressPositions] at hp
      rcases List.mem_cons.mp hp with h | h
      · exact ⟨h ▸ le_refl d, h ▸ hd⟩
      · exact ⟨le_trans hstep_ge (ihm p h).1, (ihm p h).2⟩

/-! ## Claims -/

/-- C1: for every concurrency cap `C ≥ 1` and link set, in every reachable state
of the batch the number of concurrently executing Transfer Units (spawned,
unfinished tasks, each holding a permit acquired before it was spawned) is at
most `min C N`. -/
theorem C1_bounded_by_min_cap_links (C : Nat) (links : List Link) (s : OrchState)
    (hC : 1 ≤ C) (h : Reachable (initState C links) s) :
    s.running.length ≤ min C links.length := by
  obtain ⟨hp, ha⟩ := reachable_inv h
  unfold PermitInv at hp
  unfold AccountInv at ha
  have hlen := ha.length_eq
  simp only [List.length_append, List.length_map] at hlen
  exact le_min (by omega) (by omega)

/-- C1 witness: with cap 1 and two links, after spawning the first link the state
reached by one `spawn` step has one running unit, within the bound `min 1 2`. -/
theorem C1_witness :
    1 ≤ 1 ∧
    (OrchState.mk [Link.mk "v" "b"] 0 [Link.mk "u" "a"] []).running.length ≤
      min 1 ([Link.mk "u" "a", Link.mk "v" "b"] : List Link).length :=
  ⟨le_refl 1,
    C1_bounded_by_min_cap_links 1 [Link.mk "u" "a", Link.mk "v" "b"]
      (OrchState.mk [Link.mk "v" "b"] 0 [Link.mk "u" "a"] []) (le_refl 1)
      (Reachable.single (Step.spawn (initState 1 [Link.mk "u" "a", Link.mk "v" "b"])
        (Link.mk "u" "a") [Link.mk "v" "b"] rfl (by decide)))⟩

/-- C2 counterexample: the claim says that with an unknown Content-Length the
position advances by each chunk's length (a raw byte counter), so one 5-byte
chunk should take the position from 0 to 5; the code computes
`min(0 + 5, total_size)` with `total_size = 0` and reports `[0, 0]`, not
`[0, 5]`. -/
theorem C2_counterexample :
    (download_file_to (Link.mk "u" "n") "d" none [[9, 9, 9, 9, 9]]).positions = [0, 0] ∧
    ¬ (download_file_to (Link.mk "u" "n") "d" none [[9, 9, 9, 9, 9]]).positions
        = [0, 0 + 5] :=
  ⟨by decide, by decide⟩

/-- C2 (amended): for every received chunk the position is updated as
`position = min(position + chunk_len, total)` whenever the total is known; a
missing Content-Length is represented as `total = 0`, and the same clamped
update then pins every reported position to 0 (progress does not degrade to a
raw byte counter). -/
theorem C2_update_rule (l : Link) (dir : String) (contentLength : Option Nat)
    (chunks : List (List Nat)) :
    (∀ t, contentLength = some t →
      ∀ d c, stepPosition (totalSize contentLength) d c = min (wrap64 (d + c)) t) ∧
    (contentLength = none →
      ∀ p ∈ (download_file_to l dir contentLength chunks).positions, p = 0) := by
  constructor
  · intro t ht d c
    rw [ht]
    rfl
  · intro hn
    rw [hn]
    exact progressPositions_zero_total (chunks.map List.length)

/-- C2 witness: with a declared total of 7, the update from position 3 on a
10-byte chunk is the clamped `min (3 + 10) 7`. -/
theorem C2_witness :
    stepPosition (totalSize (some 7)) 3 10 = min (wrap64 (3 + 10)) 7 :=
  (C2_update_rule (Link.mk "u" "a") "d" (some 7) []).1 7 rfl 3 10

/-- C3: in every completed batch (no pending links, no running tasks) the
recorded results are, link for link, a permutation of the input link list: each
link was submitted exactly once and has exactly one result, so the result count
equals the input link count. -/
theorem C3_exactly_one_result_per_link (C : Nat) (links : List Link) (s : OrchState)
    (h : Reachable (initState C links) s) (hterm : Terminal s) :
    (s.finished.map Prod.fst).Perm links ∧ s.finished.length = links.length := by
  have ha := (reachable_inv h).2
  unfold AccountInv at ha
  rw [hterm.1, hterm.2] at ha
  simp only [List.nil_append] at ha
  exact ⟨ha, by simpa using ha.length_eq⟩

/-- C3 witness: a complete run with cap 1 and one link (spawn, then finish)
records exactly that link's result. -/
theorem C3_witness :
    ((OrchState.mk [] 1 [] [(Link.mk "u" "a", true)]).finished.map Prod.fst).Perm
        [Link.mk "u" "a"] ∧
    (OrchState.mk [] 1 [] [(Link.mk "u" "a", true)]).finished.length =
      ([Link.mk "u" "a"] : List Link).length :=
  C3_exactly_one_result_per_link 1 [Link.mk "u" "a"]
    (OrchState.mk [] 1 [] [(Link.mk "u" "a", true)])
    (Reachable.tail
      (Reachable.single
        (Step.spawn (initState 1 [Link.mk "u" "a"]) (Link.mk "u" "a") [] rfl (by decide)))
      (Step.finish (OrchState.mk [] 0 [Link.mk "u" "a"] []) (Link.mk "u" "a") true
        (by decide)))
    ⟨rfl, rfl⟩

/-- C4: permit conservation: in every reachable state the available permits plus
the running units equal the capacity, so each running unit holds exactly one
permit for its whole execution; and for a running unit either exit outcome
(success or failure) is a step that returns its permit and records its result,
releasing the permit exactly once at termination. -/
theorem C4_permit_conservation (C : Nat) (links : List Link) (s : OrchState)
    (h : Reachable (initState C links) s) :
    s.available + s.running.length = C ∧ s.available ≤ C ∧
    ∀ (l : Link) (ok : Bool), l ∈ s.running →
      Step s ⟨s.pending, s.available + 1, s.running.erase l, s.finished ++ [(l, ok)]⟩ := by
  have hp := (reachable_inv h).1
  unfold PermitInv at hp
  exact ⟨hp, by omega, fun l ok hr => Step.finish s l ok hr⟩

/-- C4 witness: after spawning the only link under cap 1, permits plus running
units equal 1, and the failing exit of that unit is a step releasing its permit. -/
theorem C4_witness :
    (OrchState.mk [] 0 [Link.mk "u" "a"] []).available +
        (OrchState.mk [] 0 [Link.mk "u" "a"] []).running.length = 1 ∧
    Step (OrchState.mk [] 0 [Link.mk "u" "a"] [])
      (OrchState.mk [] 1 [] [(Link.mk "u" "a", false)]) :=
  ⟨(C4_permit_conservation 1 [Link.mk "u" "a"] (OrchState.mk [] 0 [Link.mk "u" "a"] [])
      (Reachable.single (Step.spawn (initState 1 [Link.mk "u" "a"]) (Link.mk "u" "a") []
        rfl (by decide)))).1,
    (C4_permit_conservation 1 [Link.mk "u" "a"] (OrchState.mk [] 0 [Link.mk "u" "a"] [])
      (Reachable.single (Step.spawn (initState 1 [Link.mk "u" "a"]) (Link.mk "u" "a") []
        rfl (by decide)))).2.2 (Link.mk "u" "a") false (by decide)⟩

/-- C5: a Transfer Unit's failure is a per-link result value, not an error of
`main`: when setup succeeds `main` returns `Ok` with one result per link
regardless of the outcomes; when the listing fetch or the directory creation
fails `main` propagates that error (non-zero exit); and from any reachable batch
state a terminal state covering every link is still reachable, whatever the
individual outcomes, so no unit's failure prevents the others from completing. -/
theorem C5_transfer_failures_isolated :
    (∀ (fetch : Except MainErr (List Link)) (dirExists : Bool)
        (dirCreate : Except MainErr Unit) (outcome : Link → Bool) (links : List Link),
        fetch = Except.ok links → (dirExists = true ∨ dirCreate = Except.ok ()) →
        (runMain fetch dirExists dirCreate outcome).2 =
          Except.ok (links.map (fun l => (l, outcome l)))) ∧
    (∀ (fetch : Except MainErr (List Link)) (dirExists : Bool)
        (dirCreate : Except MainErr Unit) (outcome : Link → Bool) (e : MainErr),
        fetch = Except.error e →
        (runMain fetch dirExists dirCreate outcome).2 = Except.error e) ∧
    (∀ (dirCreate : Except MainErr Unit) (outcome : Link → Bool) (links : List Link)
        (e : MainErr), dirCreate = Except.error e →
        (runMain (Except.ok links) false dirCreate outcome).2 = Except.error e) ∧
    (∀ (C : Nat) (links : List Link) (s : OrchState), 1 ≤ C →
        Reachable (initState C links) s →
        ∃ t, Reachable s t ∧ Terminal t ∧ (t.finished.map Prod.fst).Perm links) := by
  refine ⟨?_, ?_, ?_, ?_⟩
  · rintro fetch dirExists dirCreate outcome links rfl hdir
    rcases hdir with h | h
    · subst h; rfl
    · cases dirExists
      · simp [runMain, h]
      · rfl
  · rintro fetch dirExists dirCreate outcome e rfl
    rfl
  · rintro dirCreate outcome links e rfl
    rfl
  · intro C links s hC h
    exact completion_covers hC h

/-- C5 witness: with a successful setup and both downloads failing, `main`
still returns `Ok` with one (failed) result per link. -/
theorem C5_witness :
    (runMain (Except.ok [Link.mk "u" "a", Link.mk "v" "b"]) false (Except.ok ())
        (fun _ => false)).2 =
      Except.ok [(Link.mk "u" "a", false), (Link.mk "v" "b", false)] :=
  C5_transfer_failures_isolated.1 (Except.ok [Link.mk "u" "a", Link.mk "v" "b"]) false
    (Except.ok ()) (fun _ => false) [Link.mk "u" "a", Link.mk "v" "b"] rfl (Or.inr rfl)

/-- C6: within a single transfer the reported progress positions are
monotonically non-decreasing over the received chunks and never exceed the
declared total (known or not), provided the `u64` addition
`downloaded + chunk_len` does not wrap. -/
theorem C6_progress_monotone_bounded (l : Link) (dir : String)
    (contentLength : Option Nat) (chunks : List (List Nat))
    (hw : ∀ b ∈ chunks, totalSize contentLength + b.length < 2 ^ 64) :
    List.Pairwise (fun a b => a ≤ b)
        (download_file_to l dir contentLength chunks).positions ∧
    ∀ p ∈ (download_file_to l dir contentLength chunks).positions,
      p ≤ totalSize contentLength := by
  have hc : ∀ c ∈ chunks.map List.length, totalSize contentLength + c < 2 ^ 64 := by
    intro c hcm
    obtain ⟨b, hb, rfl⟩ := List.mem_map.mp hcm
    exact hw b hb
  obtain ⟨h1, h2⟩ := progressPositions_mono_bounded (totalSize contentLength)
    (chunks.map List.length) hc 0 (Nat.zero_le _)
  exact ⟨h1, fun p hp => (h2 p hp).2⟩

/-- C6 witness: total 4, chunks of 2 and 3 bytes: positions `[0, 2, 4]` are
non-decreasing and bounded by 4. -/
theorem C6_witness :
    (∀ b ∈ ([[1, 2], [3, 4, 5]] : List (List Nat)),
        totalSize (some 4) + b.length < 2 ^ 64) ∧
    (List.Pairwise (fun a b => a ≤ b)
        (download_file_to (Link.mk "u" "a") "d" (some 4) [[1, 2], [3, 4, 5]]).positions ∧
      ∀ p ∈ (download_file_to (Link.mk "u" "a") "d" (some 4) [[1, 2], [3, 4, 5]]).positions,
        p ≤ totalSize (some 4)) :=
  ⟨by decide,
    C6_progress_monotone_bounded (Link.mk "u" "a") "d" (some 4) [[1, 2], [3, 4, 5]]
      (by decide)⟩

/-- C7: a successful transfer of a link with a relative name creates exactly one
file, at `directory/link.name`: its bytes are the chunks concatenated in arrival
order, its length is the total number of streamed bytes, any existing file at
that path is overwritten, and no other path is touched. -/
theorem C7_single_file_full_bytes (fs : String → Option (List Nat)) (dir : String)
    (l : Link) (contentLength : Option Nat) (chunks : List (List Nat))
    (habs : isAbsolutePath l.name = false) :
    (download_file_to l dir contentLength chunks).path = dir ++ "/" ++ l.name ∧
    (download_file_to l dir contentLength chunks).bytes = chunks.flatten ∧
    (download_file_to l dir contentLength chunks).bytes.length =
      (chunks.map List.length).sum ∧
    fsAfterTransfer fs dir l chunks (joinPath dir l.name) = some chunks.flatten ∧
    ∀ p, p ≠ joinPath dir l.name → fsAfterTransfer fs dir l chunks p = fs p := by
  have hpath : joinPath dir l.name = dir ++ "/" ++ l.name := by
    unfold joinPath
    rw [habs]
    simp
  refine ⟨hpath, fileBytes_eq_flatten chunks, ?_, ?_, ?_⟩
  · show (fileBytes chunks).length = (chunks.map List.length).sum
    rw [fileBytes_eq_flatten]
    exact List.length_flatten chunks
  · unfold fsAfterTransfer
    rw [if_pos rfl, fileBytes_eq_flatten]
  · intro p hp
    unfold fsAfterTransfer
    simp only [if_neg hp]

/-- C7 witness: downloading chunks `[7]` and `[8, 9]` to `d/a.txt` writes the
file `[7, 8, 9]` of length 3 at that single path. -/
theorem C7_witness :
    isAbsolutePath (Link.mk "u" "a.txt").name = false ∧
    ((download_file_to (Link.mk "u" "a.txt") "d" (some 3) [[7], [8, 9]]).path =
        "d" ++ "/" ++ (Link.mk "u" "a.txt").name ∧
      (download_file_to (Link.mk "u" "a.txt") "d" (some 3) [[7], [8, 9]]).bytes =
        ([[7], [8, 9]] : List (List Nat)).flatten ∧
      (download_file_to (Link.mk "u" "a.txt") "d" (some 3) [[7], [8, 9]]).bytes.length =
        (([[7], [8, 9]] : List (List Nat)).map List.length).sum ∧
      fsAfterTransfer (fun _ => none) "d" (Link.mk "u" "a.txt") [[7], [8, 9]]
          (joinPath "d" (Link.mk "u" "a.txt").name) =
        some ([[7], [8, 9]] : List (List Nat)).flatten ∧
      ∀ p, p ≠ joinPath "d" (Link.mk "u" "a.txt").name →
        fsAfterTransfer (fun _ => none) "d" (Link.mk "u" "a.txt") [[7], [8, 9]] p =
          (fun _ => none : String → Option (List Nat)) p) :=
  ⟨by decide,
    C7_single_file_full_bytes (fun _ => none) "d" (Link.mk "u" "a.txt") (some 3)
      [[7], [8, 9]] (by decide)⟩

/-- C8: when the output directory is missing, its (recursive) creation is the
first event of the run and strictly precedes every task spawn; when it already
exists, no creation is attempted and the run still succeeds with one result per
link. -/
theorem C8_dir_before_spawn (fetch : Except MainErr (List Link))
    (dirCreate : Except MainErr Unit) (outcome : Link → Bool) :
    (∀ links, fetch = Except.ok links → dirCreate = Except.ok () →
      (runMain fetch false dirCreate outcome).1 =
        Ev.createDir :: (links.map Ev.spawnTask
          ++ links.map (fun l => Ev.recordResult l (outcome l))) ∧
      ∀ i l, (runMain fetch false dirCreate outcome).1.get? i = some (Ev.spawnTask l) →
        1 ≤ i) ∧
    (∀ links, fetch = Except.ok links →
      (runMain fetch true dirCreate outcome).2 =
        Except.ok (links.map (fun l => (l, outcome l))) ∧
      Ev.createDir ∉ (runMain fetch true dirCreate outcome).1) := by
  constructor
  · rintro links rfl rfl
    have hev : (runMain (Except.ok links) false (Except.ok ()) outcome).1 =
        Ev.createDir :: (links.map Ev.spawnTask
          ++ links.map (fun l => Ev.recordResult l (outcome l))) := by
      simp [runMain]
    refine ⟨hev, ?_⟩
    intro i l hi
    cases i with
    | zero =>
      rw [hev] at hi
      simp at hi
    | succ n => omega
  · rintro links rfl
    constructor
    · rfl
    · intro hmem
      have hev : (runMain (Except.ok links) true dirCreate outcome).1 =
          links.map Ev.spawnTask
            ++ links.map (fun l => Ev.recordResult l (outcome l)) := rfl
      rw [hev] at hmem
      rcases List.mem_append.mp hmem with h | h
      · obtain ⟨x, _, hx⟩ := List.mem_map.mp h
        exact Ev.noConfusion hx
      · obtain ⟨x, _, hx⟩ := List.mem_map.mp h
        exact Ev.noConfusion hx

/-- C8 witness: with the directory missing and creation succeeding, the run's
events start with the directory creation, before the spawn of the only link. -/
theorem C8_witness :
    (runMain (Except.ok [Link.mk "u" "a"]) false (Except.ok ()) (fun _ => true)).1 =
      Ev.createDir :: [Ev.spawnTask (Link.mk "u" "a"),
        Ev.recordResult (Link.mk "u" "a") true] :=
  ((C8_dir_before_spawn (Except.ok [Link.mk "u" "a"]) (Except.ok ()) (fun _ => true)).1
    [Link.mk "u" "a"] rfl rfl).1

/-- C9 (implicit): the CLI accepts a concurrency cap of 0 (`u8` with no lower
bound); with cap 0 the semaphore starts empty, so for a non-empty link set no
step is enabled in the initial state: the first permit acquisition suspends
forever, no Transfer Unit ever starts, and the batch never reaches a terminal
state. -/
theorem C9_zero_cap_never_starts (links : List Link) (h : links ≠ []) :
    parseNumLanes (some 0) = some 0 ∧
    (∀ s, ¬ Step (initState 0 links) s) ∧
    (initState 0 links).pending ≠ [] ∧
    (∀ s, Reachable (initState 0 links) s → s = initState 0 links) := by
  have hnostep : ∀ s, ¬ Step (initState 0 links) s := by
    intro s hs
    cases hs with
    | spawn l rest hp ha => simp [initState] at ha
    | finish l ok hr => simp [initState] at hr
  refine ⟨rfl, hnostep, h, ?_⟩
  intro s hs
  induction hs with
  | refl => rfl
  | tail hr hstep ih =>
    rw [ih] at hstep
    exact absurd hstep (hnostep _)

/-- C9 witness: cap 0 is accepted by argument parsing, and with one pending link
the initial state cannot even step to itself. -/
theorem C9_witness :
    parseNumLanes (some 0) = some 0 ∧
    ¬ Step (initState 0 [Link.mk "u" "a"]) (initState 0 [Link.mk "u" "a"]) :=
  ⟨(C9_zero_cap_never_starts [Link.mk "u" "a"] (by decide)).1,
    (C9_zero_cap_never_starts [Link.mk "u" "a"] (by decide)).2.1
      (initState 0 [Link.mk "u" "a"])⟩

/-- C10 (implicit): `collect_links` pairs hrefs with names strictly by position
(`zip`), truncating to the shorter sequence, and collects into a deduplicated
set: its size is at most `min` of the two sequence lengths, and a link is in the
set exactly when its `(url, name)` pair occurs in the zipped sequence. -/
theorem C10_positional_pairing_dedup (urls names : List String) :
    (collect_links urls names).card ≤ min urls.length names.length ∧
    (urls.zip names).length = min urls.length names.length ∧
    ∀ l : Link, l ∈ collect_links urls names ↔ (l.url, l.name) ∈ urls.zip names := by
  refine ⟨?_, List.length_zip urls names, ?_⟩
  · calc (collect_links urls names).card
        ≤ ((urls.zip names).map (fun p => Link.mk p.1 p.2)).length :=
          List.toFinset_card_le _
      _ = (urls.zip names).length := List.length_map _ _
      _ = min urls.length names.length := List.length_zip urls names
  · intro l
    constructor
    · intro hl
      obtain ⟨p, hp, he⟩ := List.mem_map.mp (List.mem_toFinset.mp hl)
      rw [← he]
      exact hp
    · intro hz
      exact List.mem_toFinset.mpr (List.mem_map.mpr ⟨(l.url, l.name), hz, rfl⟩)

end Neboder
